import Mathlib

/-!
Verification development for the OpenMapCalendar backend (the multi-calendar
Express server file).  The definitions below are a shallow embedding of the
server's pure core: `normalizeState`, `flattenEvents`, `groupByDay`,
`mergeState`, and the body of the `POST /api/calendars/:id` (Save) route
handler.  Conventions of the embedding:

* JS objects used as string-keyed dictionaries (the `events` day buckets and
  the `grouped` object) are association lists in key-iteration order.
* A JS `Map` is an association list in insertion order; `Map.set` replaces
  the value at an existing key in place and otherwise appends, `Map.delete`
  removes the entry.
* `deepEqual a b` in the source is `JSON.stringify(a) === JSON.stringify(b)`;
  on the well-typed values manipulated here this is structural equality, so
  it is modelled as `=` on the corresponding Lean structures.
* JS numbers reaching the numeric settings are modelled as `JsNum`: either a
  finite value (carried as `Int`) or a non-finite result of `Number(...)`
  (`NaN`/`Infinity`), which is all `Number.isFinite` distinguishes.
* Nullish (absent/`null`/`undefined`) record fields are `Option`s; the `??`
  operator is `jsOr`.
* The durable write `writeCalendarToDisk` is the only effect the Save
  handler performs; it is modelled by a boolean `writeOk` telling whether
  the write succeeds or throws (the `catch` branch of the handler).
-/

namespace OMC

/-- A calendar event.  The server treats events as opaque JSON objects: it
only ever reads `id` (truthiness test in `flattenEvents`), `dayIndex` (the
regrouping key in `groupByDay`) and `startMinutes` (the sort key); everything
else merely participates in deep equality.  `id = none` models a
missing/null id and `some ""` an empty-string id, both falsy in JS.  The
remaining payload fields (`title`, `color`) stand for the event's other
JSON content so that deep equality is not determined by the id alone. -/
structure Event where
  id : Option String
  dayIndex : Int
  startMinutes : Int
  endMinutes : Int
  title : String
  color : String
deriving DecidableEq, Repr

/-- The `events` field of a calendar state: a JS object mapping day keys to
arrays of events, kept in key-iteration order. -/
abbrev EventsByDay := List (String × List Event)

/-- A JS `Map` from event id to event, in insertion order. -/
abbrev EMap := List (String × Event)

/-- `Map.get` / lookup: first entry with the given key. -/
def mapGet? : EMap → String → Option Event
  | [], _ => none
  | p :: rest, k => if p.1 = k then some p.2 else mapGet? rest k

/-- `Map.has`. -/
def containsKey : EMap → String → Bool
  | [], _ => false
  | p :: rest, k => p.1 = k || containsKey rest k

/-- `Map.set`: replace the value at an existing key keeping its position,
otherwise append the new entry at the end. -/
def mapSet : EMap → String → Event → EMap
  | [], k, v => [(k, v)]
  | p :: rest, k, v => if p.1 = k then (p.1, v) :: rest else p :: mapSet rest k v

/-- `Map.delete`: remove the entry stored under `k` (a `Map` holds at most
one entry per key, so removing every matching entry is the same thing). -/
def mapDelete : EMap → String → EMap
  | [], _ => []
  | p :: rest, k => if p.1 = k then mapDelete rest k else p :: mapDelete rest k

/-- The key under which `flattenEvents` stores an event: `ev.id` when it is
truthy, `none` when `!ev?.id` (absent or empty string) makes the source
`continue`. -/
def evKey? (e : Event) : Option String :=
  match e.id with
  | none => none
  | some s => if s = "" then none else some s

/-- Whether the source's `!ev?.id` guard lets the event through. -/
def hasId (e : Event) : Bool := (evKey? e).isSome

/-- One step of `flattenEvents`: `if (!ev?.id) continue; result.set(ev.id, ev)`. -/
def addEvent (acc : EMap) (ev : Event) : EMap :=
  match evKey? ev with
  | none => acc
  | some k => mapSet acc k ev

/-- `flattenEvents(eventsByDay)`: iterate the day buckets in key order and
the events of each bucket in array order, inserting every truthy-id event
into a `Map` keyed by its id. -/
def flattenEvents (eventsByDay : EventsByDay) : EMap :=
  eventsByDay.foldl (fun acc bucket => bucket.2.foldl addEvent acc) []

/-- One step of `groupByDay`'s grouping loop:
`grouped[dayKey] ||= []; grouped[dayKey].push(event)` with JS object
semantics (push onto the existing bucket in place, else add a new key). -/
def bucketAdd : EventsByDay → String → Event → EventsByDay
  | [], k, e => [(k, [e])]
  | p :: rest, k, e =>
      if p.1 = k then (p.1, p.2 ++ [e]) :: rest else p :: bucketAdd rest k e

/-- The source's `dayEvents.sort((a, b) => a.startMinutes - b.startMinutes)`:
a stable sort by `startMinutes` ascending (JS `Array.prototype.sort` is
specified stable; `insertionSort` with `≤` is a stable sort). -/
def sortByStart (l : List Event) : List Event :=
  List.insertionSort (fun a b => a.startMinutes ≤ b.startMinutes) l

/-- One iteration of `groupByDay`'s loop over `eventsMap.values()`:
`const dayKey = String(event.dayIndex); grouped[dayKey].push(event)`. -/
def groupStep (g : EventsByDay) (p : String × Event) : EventsByDay :=
  bucketAdd g (toString p.2.dayIndex) p.2

/-- `groupByDay(eventsMap)`: bucket the map's values by `String(dayIndex)`
then sort each bucket by `startMinutes`. -/
def groupByDay (m : EMap) : EventsByDay :=
  (m.foldl groupStep []).map (fun p => (p.1, sortByStart p.2))

/-- A normalized calendar schedule state (the shape `normalizeState`
returns and `mergeState` consumes). -/
structure CalState where
  numDays : Int
  startDate : String
  startHour : Int
  endHour : Int
  viewMode : String
  events : EventsByDay
deriving DecidableEq, Repr

/-- One step of the merge's incoming-events loop:
`if (!deepEqual(incomingEvent, baseEvent)) currentMap.set(id, incomingEvent)`
(`baseEvent` may be `undefined`, which is never deep-equal to an object). -/
def incomingStep (baseMap : EMap) (acc : EMap) (p : String × Event) : EMap :=
  if mapGet? baseMap p.1 = some p.2 then acc else mapSet acc p.1 p.2

/-- One step of the merge's deletion loop:
`if (!incomingMap.has(id)) currentMap.delete(id)`. -/
def deleteStep (incomingMap : EMap) (acc : EMap) (k : String) : EMap :=
  if containsKey incomingMap k then acc else mapDelete acc k

/-- The event map `mergeState` ends up with in `currentMap` after its two
loops, before regrouping. -/
def mergedEventMap (current base incoming : CalState) : EMap :=
  let baseMap := flattenEvents base.events
  let incomingMap := flattenEvents incoming.events
  let afterIncoming := incomingMap.foldl (incomingStep baseMap) (flattenEvents current.events)
  (baseMap.map Prod.fst).foldl (deleteStep incomingMap) afterIncoming

/-- `mergeState(current, base, incoming)`: scalar settings are taken from
`incoming` exactly when `incoming` differs from `base` on that field
(otherwise the spread of `current` is kept), and the events are the result
of the two per-id loops regrouped by day. -/
def mergeState (current base incoming : CalState) : CalState :=
  { numDays := if incoming.numDays = base.numDays then current.numDays else incoming.numDays
    startDate := if incoming.startDate = base.startDate then current.startDate else incoming.startDate
    startHour := if incoming.startHour = base.startHour then current.startHour else incoming.startHour
    endHour := if incoming.endHour = base.endHour then current.endHour else incoming.endHour
    viewMode := if incoming.viewMode = base.viewMode then current.viewMode else incoming.viewMode
    events := groupByDay (mergedEventMap current base incoming) }

/-- The result of `Number(x)` for a non-nullish raw field value: either a
finite number or `NaN`/`±Infinity` (all that `Number.isFinite` cares about). -/
inductive JsNum where
  | nonFinite
  | finite (v : Int)
deriving DecidableEq, Repr

/-- The nullish-coalescing operator `a ?? b`. -/
def jsOr {α : Type} : Option α → Option α → Option α
  | some x, _ => some x
  | none, b => b

/-- The optional `settings` sub-object consulted by `normalizeState`. -/
structure RawSettings where
  numDays : Option JsNum
  startHour : Option JsNum
  endHour : Option JsNum
  viewMode : Option String
deriving DecidableEq, Repr

/-- `raw?.settings ?? {}` when `settings` is nullish. -/
def emptySettings : RawSettings := ⟨none, none, none, none⟩

/-- A raw state object as received by the server.  A field is `none` when
the source's guard rejects it: nullish for the `??`-read fields, non-string
for `startDate` (`typeof` check), non-object/null for `events`.  Numeric
fields carry the value of `Number(...)` applied to them. -/
structure RawState where
  settings : Option RawSettings
  numDays : Option JsNum
  startDate : Option String
  startHour : Option JsNum
  endHour : Option JsNum
  viewMode : Option String
  events : Option EventsByDay
deriving DecidableEq, Repr

/-- `DEFAULT_STATE`, parametrised by the `new Date().toISOString()` the
server computed at startup. -/
def DEFAULT_STATE (bootDate : String) : CalState :=
  { numDays := 5
    startDate := bootDate
    startHour := 7
    endHour := 22
    viewMode := "row"
    events := [] }

/-- `normalizeState(raw)`. -/
def normalizeState (bootDate : String) (raw : RawState) : CalState :=
  let settings := raw.settings.getD emptySettings
  let numDays := jsOr raw.numDays settings.numDays
  let startHour := jsOr raw.startHour settings.startHour
  let endHour := jsOr raw.endHour settings.endHour
  { numDays :=
      match numDays with
      | some (JsNum.finite v) => if 0 < v then v else (DEFAULT_STATE bootDate).numDays
      | _ => (DEFAULT_STATE bootDate).numDays
    startDate := raw.startDate.getD (DEFAULT_STATE bootDate).startDate
    startHour :=
      match startHour with
      | some (JsNum.finite v) => v
      | _ => (DEFAULT_STATE bootDate).startHour
    endHour :=
      match endHour with
      | some (JsNum.finite v) => v
      | _ => (DEFAULT_STATE bootDate).endHour
    viewMode := (jsOr raw.viewMode settings.viewMode).getD (DEFAULT_STATE bootDate).viewMode
    events := raw.events.getD [] }

/-- An entry of the in-memory registry `calendars`:
`{ name, state, revision, updatedAt }`. -/
structure CalEntry where
  name : String
  state : CalState
  revision : Int
  updatedAt : String
deriving DecidableEq, Repr

/-- The request body of a Save call.  `state` is `req.body?.state ?? req.body`,
`baseState` is `none` when `req.body?.baseState` is falsy, and `baseRevision`
is `some r` exactly when `Number.isInteger(req.body?.baseRevision)`. -/
structure SaveBody where
  state : RawState
  baseState : Option RawState
  baseRevision : Option Int
deriving DecidableEq, Repr

/-- The JSON response of the Save handler: `{ success, state, revision }` on
success, the `500 Failed to save data` answer from the `catch` branch
otherwise. -/
inductive SaveResp where
  | ok (state : CalState) (revision : Int)
  | storageError
deriving DecidableEq, Repr

/-- The `nextState` the Save handler adopts:
`baseRevision !== null && baseRevision !== cal.revision && base
  ? mergeState(cal.state, base, incoming) : incoming`. -/
def nextStateOf (bootDate : String) (cal : CalEntry) (body : SaveBody) : CalState :=
  let incoming := normalizeState bootDate body.state
  match body.baseRevision, body.baseState with
  | some r, some braw =>
      if r ≠ cal.revision then
        mergeState cal.state (normalizeState bootDate braw) incoming
      else incoming
  | _, _ => incoming

/-- The body of `POST /api/calendars/:id` once the calendar was found, as a
function of the registry entry.  Returns the response together with the
registry entry as it is left in memory.  Note the source mutates
`cal.state`, `cal.revision` and `cal.updatedAt` *before* calling
`writeCalendarToDisk`; when the write throws, the `catch` branch answers
with status 500 but the mutated entry stays in the `calendars` map. -/
def saveExisting (bootDate now : String) (cal : CalEntry) (body : SaveBody)
    (writeOk : Bool) : SaveResp × CalEntry :=
  let nextState := nextStateOf bootDate cal body
  if nextState = cal.state then
    (SaveResp.ok cal.state cal.revision, cal)
  else
    let cal' : CalEntry := ⟨cal.name, nextState, cal.revision + 1, now⟩
    if writeOk then (SaveResp.ok cal'.state cal'.revision, cal')
    else (SaveResp.storageError, cal')

/-- All events of a day-bucketed structure, in bucket order. -/
def allEvents (g : EventsByDay) : List Event := (g.map Prod.snd).flatten

/-- Well-formedness of the event maps the merge manipulates: keys are
pairwise distinct (a `Map` property) and every entry is stored under the
key `flattenEvents` derives from its own id. -/
def WfMap (m : EMap) : Prop :=
  (m.map Prod.fst).Nodup ∧ ∀ p ∈ m, evKey? p.2 = some p.1

instance : IsTotal Event (fun a b => a.startMinutes ≤ b.startMinutes) :=
  ⟨fun a b => Int.le_total a.startMinutes b.startMinutes⟩

instance : IsTrans Event (fun a b => a.startMinutes ≤ b.startMinutes) :=
  ⟨fun _ _ _ hab hbc => le_trans hab hbc⟩

/-- Concrete data used to exercise the theorems below: the spec's own merge
scenario (event `"a"` edited by the client, event `"b"` added concurrently
by another client, plus an id-less event sitting in the server's state). -/
def evA : Event := ⟨some "a", 0, 0, 60, "hike", "green"⟩

def evA2 : Event := ⟨some "a", 0, 0, 90, "hike", "green"⟩

def evB : Event := ⟨some "b", 0, 120, 180, "lunch", "blue"⟩

def evNoId : Event := ⟨none, 0, 30, 40, "ghost", ""⟩

def stateBase : CalState := ⟨5, "2026-01-01", 7, 22, "row", [("0", [evA])]⟩

def stateCur : CalState := ⟨5, "2026-01-01", 7, 22, "grid", [("0", [evA, evB, evNoId])]⟩

def stateInc : CalState := ⟨5, "2026-01-01", 7, 22, "row", [("0", [evA2])]⟩

def stateIncDel : CalState := ⟨5, "2026-01-01", 7, 22, "row", []⟩

def rawNum3 : RawState := ⟨none, some (JsNum.finite 3), none, none, none, none, none⟩

def rawZig : RawState := ⟨none, none, none, none, none, some "zigzag", none⟩

def rawEmpty : RawState := ⟨none, none, none, none, none, none, none⟩

def cal0 : CalEntry := ⟨"Trip", ⟨5, "2026-01-01", 7, 22, "row", []⟩, 0, "t0"⟩

def body1 : SaveBody := ⟨rawNum3, none, some 0⟩

def bodyNoBase : SaveBody := ⟨rawNum3, none, none⟩

def bodyMergeW : SaveBody := ⟨rawNum3, some rawEmpty, some 7⟩

theorem evKey?_eq_some (v : Event) (k : String) :
    evKey? v = some k ↔ v.id = some k ∧ k ≠ "" := by
  cases h : v.id with
  | none => simp [evKey?, h]
  | some s =>
      by_cases hs : s = ""
      · simp [evKey?, h, hs]
        exact fun he => he.symm
      · simp [evKey?, h, hs]
        rintro rfl
        exact hs

theorem evKey?_congr (e v : Event) (h : e.id = v.id) : evKey? e = evKey? v := by
  simp [evKey?, h]

theorem mapGet?_mapSet (m : EMap) (k k' : String) (v : Event) :
    mapGet? (mapSet m k v) k' = if k' = k then some v else mapGet? m k' := by
  induction m with
  | nil =>
      by_cases h : k' = k
      · simp [mapSet, mapGet?, h]
      · simp [mapSet, mapGet?, h, Ne.symm h]
  | cons p rest ih =>
      by_cases hp : p.1 = k
      · by_cases hk : k' = k
        · subst hk
          simp [mapSet, mapGet?, hp]
        · have hkk : ¬k = k' := fun hc => hk hc.symm
          simp [mapSet, mapGet?, hp, hkk, hk]
      · by_cases hpk : p.1 = k'
        · have hk : ¬k' = k := fun hc => hp (hpk.trans hc)
          simp [mapSet, mapGet?, hp, hpk, hk]
        · simp [mapSet, mapGet?, hp, hpk, ih]

theorem containsKey_iff (m : EMap) (k : String) :
    containsKey m k = true ↔ k ∈ m.map Prod.fst := by
  induction m with
  | nil => simp [containsKey]
  | cons p rest ih =>
      simp only [containsKey, List.map_cons, List.mem_cons, Bool.or_eq_true,
        decide_eq_true_eq, ih]
      constructor
      · rintro (h | h)
        · exact Or.inl h.symm
        · exact Or.inr h
      · rintro (h | h)
        · exact Or.inl h.symm
        · exact Or.inr h

theorem keys_mapSet (m : EMap) (k : String) (v : Event) :
    (mapSet m k v).map Prod.fst =
      if containsKey m k then m.map Prod.fst else m.map Prod.fst ++ [k] := by
  induction m with
  | nil => simp [mapSet, containsKey]
  | cons p rest ih =>
      by_cases hp : p.1 = k
      · simp [mapSet, containsKey, hp]
      · by_cases hr : containsKey rest k = true <;>
          simp [mapSet, containsKey, hp, hr, ih]

theorem nodup_keys_mapSet (m : EMap) (k : String) (v : Event)
    (h : (m.map Prod.fst).Nodup) : ((mapSet m k v).map Prod.fst).Nodup := by
  rw [keys_mapSet]
  by_cases hc : containsKey m k = true
  · simpa [hc]
  · have hk : k ∉ m.map Prod.fst := fun hm => hc ((containsKey_iff m k).2 hm)
    simp [hc, List.nodup_append, h, hk]

theorem mem_mapSet (m : EMap) (k : String) (v : Event) (q : String × Event)
    (h : q ∈ mapSet m k v) : q ∈ m ∨ q = (k, v) := by
  induction m with
  | nil =>
      simp [mapSet] at h
      simp [h]
  | cons p rest ih =>
      by_cases hp : p.1 = k
      · simp [mapSet, hp] at h
        rcases h with h | h
        · right
          rw [h]
        · left
          simp [h]
      · simp [mapSet, hp] at h
        rcases h with h | h
        · left
          simp [h]
        · rcases ih h with h' | h'
          · left
            simp [h']
          · right
            exact h'

theorem mapGet?_eq_some_mem (m : EMap) (k : String) (v : Event)
    (h : mapGet? m k = some v) : (k, v) ∈ m := by
  induction m with
  | nil => simp [mapGet?] at h
  | cons p rest ih =>
      by_cases hp : p.1 = k
      · simp [mapGet?, hp] at h
        have hpv : p = (k, v) := by
          obtain ⟨a, b⟩ := p
          simp at hp h
          rw [hp, h]
        exact List.mem_cons.2 (Or.inl hpv.symm)
      · simp [mapGet?, hp] at h
        exact List.mem_cons.2 (Or.inr (ih h))

theorem mem_mapGet? (m : EMap) (k : String) (v : Event)
    (hnd : (m.map Prod.fst).Nodup) (h : (k, v) ∈ m) : mapGet? m k = some v := by
  induction m with
  | nil => simp at h
  | cons p rest ih =>
      rcases List.mem_cons.1 h with h' | h'
      · simp [mapGet?, ← h']
      · have hk : k ∈ rest.map Prod.fst := List.mem_map.2 ⟨(k, v), h', rfl⟩
        have hp : p.1 ≠ k := by
          intro hpk
          exact (List.nodup_cons.1 hnd).1 (hpk ▸ hk)
        simp [mapGet?, hp]
        exact ih (List.nodup_cons.1 hnd).2 h'

theorem mapGet?_mapDelete_ne (m : EMap) (k k' : String) (h : k' ≠ k) :
    mapGet? (mapDelete m k) k' = mapGet? m k' := by
  induction m with
  | nil => simp [mapDelete]
  | cons p rest ih =>
      by_cases hp : p.1 = k
      · simp [mapDelete, hp, mapGet?, Ne.symm h, ih]
      · by_cases hpk : p.1 = k' <;> simp [mapDelete, hp, mapGet?, hpk, h, ih]

theorem containsKey_mapDelete_self (m : EMap) (k : String) :
    containsKey (mapDelete m k) k = false := by
  induction m with
  | nil => simp [mapDelete, containsKey]
  | cons p rest ih =>
      by_cases hp : p.1 = k <;> simp [mapDelete, hp, containsKey, ih]

theorem containsKey_mapDelete_of (m : EMap) (k k' : String)
    (h : containsKey m k' = false) : containsKey (mapDelete m k) k' = false := by
  induction m with
  | nil => simp [mapDelete, containsKey]
  | cons p rest ih =>
      simp only [containsKey, Bool.or_eq_false_iff, decide_eq_false_iff_not] at h
      by_cases hp : p.1 = k <;>
        simp [mapDelete, hp, containsKey, h.1, ih h.2]

theorem mem_mapDelete (m : EMap) (k : String) (q : String × Event)
    (h : q ∈ mapDelete m k) : q ∈ m := by
  induction m with
  | nil => simp [mapDelete] at h
  | cons p rest ih =>
      by_cases hp : p.1 = k
      · simp [mapDelete, hp] at h
        exact List.mem_cons.2 (Or.inr (ih h))
      · simp [mapDelete, hp] at h
        rcases h with h | h
        · exact List.mem_cons.2 (Or.inl h)
        · exact List.mem_cons.2 (Or.inr (ih h))

theorem mem_keys_mapDelete (m : EMap) (k k' : String)
    (h : k' ∈ (mapDelete m k).map Prod.fst) : k' ∈ m.map Prod.fst := by
  rcases List.mem_map.1 h with ⟨q, hq, hq'⟩
  exact List.mem_map.2 ⟨q, mem_mapDelete m k q hq, hq'⟩

theorem nodup_keys_mapDelete (m : EMap) (k : String)
    (h : (m.map Prod.fst).Nodup) : ((mapDelete m k).map Prod.fst).Nodup := by
  induction m with
  | nil => simp [mapDelete]
  | cons p rest ih =>
      rcases List.nodup_cons.1 h with ⟨hp1, hrest⟩
      by_cases hp : p.1 = k
      · simp [mapDelete, hp]
        exact ih hrest
      · simp only [mapDelete, hp, if_false, List.map_cons, List.nodup_cons]
        exact ⟨fun hc => hp1 (mem_keys_mapDelete rest k p.1 hc), ih hrest⟩

theorem wf_mapSet (m : EMap) (k : String) (v : Event)
    (hw : WfMap m) (hv : evKey? v = some k) : WfMap (mapSet m k v) := by
  refine ⟨nodup_keys_mapSet m k v hw.1, fun p hp => ?_⟩
  rcases mem_mapSet m k v p hp with h | h
  · exact hw.2 p h
  · rw [h]
    exact hv

theorem wf_mapDelete (m : EMap) (k : String) (hw : WfMap m) :
    WfMap (mapDelete m k) :=
  ⟨nodup_keys_mapDelete m k hw.1,
   fun p hp => hw.2 p (mem_mapDelete m k p hp)⟩

theorem wf_addEvent (m : EMap) (ev : Event) (hw : WfMap m) :
    WfMap (addEvent m ev) := by
  unfold addEvent
  cases h : evKey? ev with
  | none => exact hw
  | some k => exact wf_mapSet m k ev hw h

theorem wf_foldl_addEvent (l : List Event) (m : EMap) (hw : WfMap m) :
    WfMap (l.foldl addEvent m) := by
  induction l generalizing m with
  | nil => exact hw
  | cons e rest ih => exact ih (addEvent m e) (wf_addEvent m e hw)

theorem wf_flattenEvents (d : EventsByDay) : WfMap (flattenEvents d) := by
  have main : ∀ (dd : EventsByDay) (m : EMap), WfMap m →
      WfMap (dd.foldl (fun acc bucket => bucket.2.foldl addEvent acc) m) := by
    intro dd
    induction dd with
    | nil => intro m hm; exact hm
    | cons b rest ih =>
        intro m hm
        exact ih _ (wf_foldl_addEvent b.2 m hm)
  exact main d [] ⟨List.nodup_nil, by simp⟩

theorem get?_foldl_incoming_not_mem (bm : EMap) (L : List (String × Event))
    (acc : EMap) (id : String) (h : id ∉ L.map Prod.fst) :
    mapGet? (L.foldl (incomingStep bm) acc) id = mapGet? acc id := by
  induction L generalizing acc with
  | nil => rfl
  | cons p rest ih =>
      simp only [List.map_cons, List.mem_cons] at h
      push_neg at h
      rw [List.foldl_cons, ih (incomingStep bm acc p) h.2]
      unfold incomingStep
      by_cases hc : mapGet? bm p.1 = some p.2
      · simp [hc]
      · simp [hc, mapGet?_mapSet, h.1]

theorem get?_foldl_incoming_mem (bm : EMap) (L : List (String × Event))
    (acc : EMap) (id : String) (iev : Event)
    (hnd : (L.map Prod.fst).Nodup) (hmem : (id, iev) ∈ L)
    (hdiff : mapGet? bm id ≠ some iev) :
    mapGet? (L.foldl (incomingStep bm) acc) id = some iev := by
  induction L generalizing acc with
  | nil => simp at hmem
  | cons p rest ih =>
      rcases List.nodup_cons.1 hnd with ⟨hp1, hrest⟩
      rcases List.mem_cons.1 hmem with h' | h'
      · subst h'
        have hid : id ∉ rest.map Prod.fst := hp1
        rw [List.foldl_cons, get?_foldl_incoming_not_mem bm rest _ id hid]
        unfold incomingStep
        simp [hdiff, mapGet?_mapSet]
      · exact ih (incomingStep bm acc p) hrest h'

theorem wf_incomingStep (bm : EMap) (acc : EMap) (p : String × Event)
    (hw : WfMap acc) (hp : evKey? p.2 = some p.1) :
    WfMap (incomingStep bm acc p) := by
  unfold incomingStep
  by_cases hc : mapGet? bm p.1 = some p.2
  · simp [hc, hw]
  · simp only [hc, if_false]
    exact wf_mapSet acc p.1 p.2 hw hp

theorem wf_foldl_incoming (bm : EMap) (L : List (String × Event)) (acc : EMap)
    (hw : WfMap acc) (hL : ∀ p ∈ L, evKey? p.2 = some p.1) :
    WfMap (L.foldl (incomingStep bm) acc) := by
  induction L generalizing acc with
  | nil => exact hw
  | cons p rest ih =>
      exact ih (incomingStep bm acc p)
        (wf_incomingStep bm acc p hw (hL p (List.mem_cons_self p rest)))
        (fun q hq => hL q (List.mem_cons.2 (Or.inr hq)))

theorem get?_foldl_delete_of_contains (icm : EMap) (ks : List String)
    (acc : EMap) (id : String) (h : containsKey icm id = true) :
    mapGet? (ks.foldl (deleteStep icm) acc) id = mapGet? acc id := by
  induction ks generalizing acc with
  | nil => rfl
  | cons k rest ih =>
      rw [List.foldl_cons, ih (deleteStep icm acc k)]
      unfold deleteStep
      by_cases hk : containsKey icm k = true
      · simp [hk]
      · have hne : id ≠ k := fun hc => hk (hc ▸ h)
        simp [hk, mapGet?_mapDelete_ne acc k id hne]

theorem get?_foldl_delete_not_mem (icm : EMap) (ks : List String)
    (acc : EMap) (id : String) (h : id ∉ ks) :
    mapGet? (ks.foldl (deleteStep icm) acc) id = mapGet? acc id := by
  induction ks generalizing acc with
  | nil => rfl
  | cons k rest ih =>
      simp only [List.mem_cons] at h
      push_neg at h
      rw [List.foldl_cons, ih (deleteStep icm acc k) h.2]
      unfold deleteStep
      by_cases hk : containsKey icm k = true
      · simp [hk]
      · simp [hk, mapGet?_mapDelete_ne acc k id h.1]

theorem not_contains_foldl_delete (icm : EMap) (ks : List String)
    (acc : EMap) (id : String) (h : containsKey acc id = false) :
    containsKey (ks.foldl (deleteStep icm) acc) id = false := by
  induction ks generalizing acc with
  | nil => exact h
  | cons k rest ih =>
      rw [List.foldl_cons]
      refine ih (deleteStep icm acc k) ?_
      unfold deleteStep
      by_cases hk : containsKey icm k = true
      · simp [hk, h]
      · simp [hk, containsKey_mapDelete_of acc k id h]

theorem contains_foldl_delete_false (icm : EMap) (ks : List String)
    (acc : EMap) (id : String) (hmem : id ∈ ks)
    (hni : containsKey icm id = false) :
    containsKey (ks.foldl (deleteStep icm) acc) id = false := by
  induction ks generalizing acc with
  | nil => simp at hmem
  | cons k rest ih =>
      rw [List.foldl_cons]
      by_cases hk : k = id
      · refine not_contains_foldl_delete icm rest _ id ?_
        unfold deleteStep
        rw [hk]
        simp [hni, containsKey_mapDelete_self]
      · rcases List.mem_cons.1 hmem with h' | h'
        · exact absurd h'.symm hk
        · exact ih (deleteStep icm acc k) h'

theorem wf_deleteStep (icm : EMap) (acc : EMap) (k : String) (hw : WfMap acc) :
    WfMap (deleteStep icm acc k) := by
  unfold deleteStep
  by_cases hk : containsKey icm k = true
  · simp [hk, hw]
  · simp only [hk, if_false]
    exact wf_mapDelete acc k hw

theorem wf_foldl_delete (icm : EMap) (ks : List String) (acc : EMap)
    (hw : WfMap acc) : WfMap (ks.foldl (deleteStep icm) acc) := by
  induction ks generalizing acc with
  | nil => exact hw
  | cons k rest ih => exact ih (deleteStep icm acc k) (wf_deleteStep icm acc k hw)

theorem mem_sortByStart (l : List Event) (x : Event) :
    x ∈ sortByStart l ↔ x ∈ l :=
  List.mem_insertionSort _

theorem sorted_sortByStart (l : List Event) :
    List.Pairwise (fun a b : Event => a.startMinutes ≤ b.startMinutes)
      (sortByStart l) :=
  List.sorted_insertionSort _ l

theorem allEvents_nil : allEvents [] = [] := rfl

theorem allEvents_cons (p : String × List Event) (g : EventsByDay) :
    allEvents (p :: g) = p.2 ++ allEvents g := by
  simp [allEvents]

theorem mem_allEvents_bucketAdd (g : EventsByDay) (k : String) (e x : Event) :
    x ∈ allEvents (bucketAdd g k e) ↔ x ∈ allEvents g ∨ x = e := by
  induction g with
  | nil => simp [bucketAdd, allEvents_cons, allEvents_nil]
  | cons q rest ih =>
      by_cases hq : q.1 = k
      · simp only [bucketAdd, hq, if_true, allEvents_cons, List.mem_append,
          List.mem_singleton]
        tauto
      · simp only [bucketAdd, hq, if_false, allEvents_cons, List.mem_append, ih]
        tauto

theorem goodMembers_bucketAdd (g : EventsByDay) (k : String) (e : Event)
    (hg : ∀ p ∈ g, ∀ x ∈ p.2, toString x.dayIndex = p.1)
    (hk : toString e.dayIndex = k) :
    ∀ p ∈ bucketAdd g k e, ∀ x ∈ p.2, toString x.dayIndex = p.1 := by
  induction g with
  | nil =>
      intro p hp x hx
      simp [bucketAdd] at hp
      subst hp
      simp at hx
      rw [hx]
      exact hk
  | cons q rest ih =>
      intro p hp x hx
      by_cases hq : q.1 = k
      · simp only [bucketAdd, hq, if_true] at hp
        rcases List.mem_cons.1 hp with h' | h'
        · subst h'
          show toString x.dayIndex = k
          rcases List.mem_append.1 hx with h2 | h2
          · rw [← hq]
            exact hg q (List.mem_cons_self q rest) x h2
          · simp at h2
            rw [h2]
            exact hk
        · exact hg p (List.mem_cons.2 (Or.inr h')) x hx
      · simp only [bucketAdd, hq, if_false] at hp
        rcases List.mem_cons.1 hp with h' | h'
        · subst h'
          exact hg p (List.mem_cons_self p rest) x hx
        · exact ih (fun r hr => hg r (List.mem_cons.2 (Or.inr hr))) p h' x hx

theorem keys_bucketAdd (g : EventsByDay) (k : String) (e : Event) :
    (bucketAdd g k e).map Prod.fst =
      if k ∈ g.map Prod.fst then g.map Prod.fst else g.map Prod.fst ++ [k] := by
  induction g with
  | nil => simp [bucketAdd]
  | cons q rest ih =>
      by_cases hq : q.1 = k
      · simp [bucketAdd, hq]
      · have hkq : ¬k = q.1 := fun hc => hq hc.symm
        by_cases hm : k ∈ rest.map Prod.fst <;>
          simp [bucketAdd, hq, hkq, hm, ih]

theorem nodupKeys_bucketAdd (g : EventsByDay) (k : String) (e : Event)
    (h : (g.map Prod.fst).Nodup) : ((bucketAdd g k e).map Prod.fst).Nodup := by
  rw [keys_bucketAdd]
  by_cases hm : k ∈ g.map Prod.fst
  · simpa [hm]
  · simp [hm, List.nodup_append, h]

theorem mem_allEvents_foldl_group (m : EMap) (g : EventsByDay) (x : Event) :
    x ∈ allEvents (m.foldl groupStep g) ↔ x ∈ allEvents g ∨ x ∈ m.map Prod.snd := by
  induction m generalizing g with
  | nil => simp
  | cons p rest ih =>
      rw [List.foldl_cons, ih (groupStep g p)]
      unfold groupStep
      rw [mem_allEvents_bucketAdd]
      simp only [List.map_cons, List.mem_cons]
      tauto

theorem goodMembers_foldl_group (m : EMap) (g : EventsByDay)
    (hg : ∀ p ∈ g, ∀ x ∈ p.2, toString x.dayIndex = p.1) :
    ∀ p ∈ m.foldl groupStep g, ∀ x ∈ p.2, toString x.dayIndex = p.1 := by
  induction m generalizing g with
  | nil => exact hg
  | cons q rest ih =>
      exact ih (groupStep g q) (goodMembers_bucketAdd g _ q.2 hg rfl)

theorem nodupKeys_foldl_group (m : EMap) (g : EventsByDay)
    (hg : (g.map Prod.fst).Nodup) : ((m.foldl groupStep g).map Prod.fst).Nodup := by
  induction m generalizing g with
  | nil => exact hg
  | cons q rest ih => exact ih (groupStep g q) (nodupKeys_bucketAdd g _ q.2 hg)

theorem mem_allEvents_map_sort (g : EventsByDay) (x : Event) :
    x ∈ allEvents (g.map (fun p => (p.1, sortByStart p.2))) ↔ x ∈ allEvents g := by
  induction g with
  | nil => simp [allEvents]
  | cons p rest ih =>
      simp only [List.map_cons, allEvents, List.flatten_cons, List.mem_append,
        mem_sortByStart] at ih ⊢
      tauto

theorem mem_allEvents_groupByDay (m : EMap) (x : Event) :
    x ∈ allEvents (groupByDay m) ↔ x ∈ m.map Prod.snd := by
  unfold groupByDay
  rw [mem_allEvents_map_sort, mem_allEvents_foldl_group]
  simp [allEvents]

theorem goodMembers_groupByDay (m : EMap) :
    ∀ p ∈ groupByDay m, ∀ x ∈ p.2, toString x.dayIndex = p.1 := by
  unfold groupByDay
  intro p hp x hx
  rcases List.mem_map.1 hp with ⟨q, hq, rfl⟩
  have hx' : x ∈ q.2 := (mem_sortByStart q.2 x).1 hx
  exact goodMembers_foldl_group m [] (by simp) q hq x hx'

theorem nodupKeys_groupByDay (m : EMap) :
    ((groupByDay m).map Prod.fst).Nodup := by
  unfold groupByDay
  have hkeys : ((m.foldl groupStep []).map (fun p => (p.1, sortByStart p.2))).map
      Prod.fst = (m.foldl groupStep []).map Prod.fst := by
    rw [List.map_map]
    rfl
  rw [hkeys]
  exact nodupKeys_foldl_group m [] (by simp)

theorem sorted_groupByDay (m : EMap) :
    ∀ p ∈ groupByDay m,
      List.Pairwise (fun a b : Event => a.startMinutes ≤ b.startMinutes) p.2 := by
  unfold groupByDay
  intro p hp
  rcases List.mem_map.1 hp with ⟨q, hq, rfl⟩
  exact sorted_sortByStart q.2

theorem wf_mergedEventMap (c b i : CalState) : WfMap (mergedEventMap c b i) :=
  wf_foldl_delete _ _ _
    (wf_foldl_incoming _ _ _ (wf_flattenEvents c.events)
      ((wf_flattenEvents i.events).2))

theorem mergeState_events_def (c b i : CalState) :
    (mergeState c b i).events = groupByDay (mergedEventMap c b i) := rfl

theorem mem_allEvents_mergeState (c b i : CalState) (x : Event) :
    x ∈ allEvents (mergeState c b i).events ↔
      x ∈ (mergedEventMap c b i).map Prod.snd := by
  rw [mergeState_events_def, mem_allEvents_groupByDay]

theorem mem_values_iff (m : EMap) (x : Event) :
    x ∈ m.map Prod.snd ↔ ∃ k, (k, x) ∈ m := by
  rw [List.mem_map]
  constructor
  · rintro ⟨q, hq, rfl⟩
    exact ⟨q.1, hq⟩
  · rintro ⟨k, hk⟩
    exact ⟨(k, x), hk, rfl⟩

theorem merged_get_unique (c b i : CalState) (eid : String) (v : Event)
    (h : mapGet? (mergedEventMap c b i) eid = some v) :
    v ∈ allEvents (mergeState c b i).events ∧
      ∀ e ∈ allEvents (mergeState c b i).events, e.id = v.id → e = v := by
  have hwf := wf_mergedEventMap c b i
  have hmem : (eid, v) ∈ mergedEventMap c b i := mapGet?_eq_some_mem _ _ _ h
  have hv : evKey? v = some eid := hwf.2 _ hmem
  constructor
  · exact (mem_allEvents_mergeState c b i v).2 ((mem_values_iff _ v).2 ⟨eid, hmem⟩)
  · intro e he heid
    rcases (mem_values_iff _ e).1 ((mem_allEvents_mergeState c b i e).1 he) with ⟨k, hke⟩
    have hk : evKey? e = some k := hwf.2 _ hke
    have hk2 : evKey? e = some eid := by rw [evKey?_congr e v heid, hv]
    rw [hk2] at hk
    have hkeid : eid = k := by injection hk
    subst hkeid
    have hge := mem_mapGet? _ _ _ hwf.1 hke
    rw [h] at hge
    injection hge with hge'
    exact hge'.symm

theorem merged_no_id (c b i : CalState) (eid : String)
    (hc : containsKey (mergedEventMap c b i) eid = false) :
    ∀ e ∈ allEvents (mergeState c b i).events, e.id ≠ some eid := by
  intro e he heq
  rcases (mem_values_iff _ e).1 ((mem_allEvents_mergeState c b i e).1 he) with ⟨k, hke⟩
  have hwf := wf_mergedEventMap c b i
  have hk : evKey? e = some k := hwf.2 _ hke
  rcases (evKey?_eq_some e k).1 hk with ⟨hid, _⟩
  rw [heq] at hid
  have hkeid : eid = k := by injection hid
  subst hkeid
  have hmem : eid ∈ (mergedEventMap c b i).map Prod.fst :=
    List.mem_map.2 ⟨(eid, e), hke, rfl⟩
  rw [(containsKey_iff _ _).2 hmem] at hc
  exact Bool.noConfusion hc

theorem nextStateOf_passthrough (bootDate : String) (cal : CalEntry) (body : SaveBody)
    (h : body.baseRevision = none ∨ body.baseState = none ∨
        body.baseRevision = some cal.revision) :
    nextStateOf bootDate cal body = normalizeState bootDate body.state := by
  unfold nextStateOf
  rcases h with h | h | h
  · rw [h]
  · rw [h]
    cases hr : body.baseRevision <;> simp
  · rw [h]
    cases hb : body.baseState <;> simp

theorem nextStateOf_merge (bootDate : String) (cal : CalEntry) (body : SaveBody)
    (r : Int) (braw : RawState) (hr : body.baseRevision = some r)
    (hb : body.baseState = some braw) (hne : r ≠ cal.revision) :
    nextStateOf bootDate cal body =
      mergeState cal.state (normalizeState bootDate braw)
        (normalizeState bootDate body.state) := by
  unfold nextStateOf
  rw [hr, hb]
  simp [hne]

theorem saveExisting_noop (bootDate now : String) (cal : CalEntry) (body : SaveBody)
    (w : Bool) (h : nextStateOf bootDate cal body = cal.state) :
    saveExisting bootDate now cal body w =
      (SaveResp.ok cal.state cal.revision, cal) := by
  unfold saveExisting
  simp [h]

theorem saveExisting_mutate (bootDate now : String) (cal : CalEntry) (body : SaveBody)
    (h : nextStateOf bootDate cal body ≠ cal.state) :
    saveExisting bootDate now cal body true =
      (SaveResp.ok (nextStateOf bootDate cal body) (cal.revision + 1),
       ⟨cal.name, nextStateOf bootDate cal body, cal.revision + 1, now⟩) := by
  unfold saveExisting
  simp [h]

/-- Claim C2: per-event last-writer-wins — for every event id present in the
incoming snapshot whose event is not deep-equal to the base snapshot's event
of that id (or absent from base), the merged state contains exactly the
incoming version of that event, overwriting any version from current. -/
theorem mergeState_per_event_lww (c b i : CalState) (eid : String) (iev : Event)
    (hin : mapGet? (flattenEvents i.events) eid = some iev)
    (hdiff : mapGet? (flattenEvents b.events) eid ≠ some iev) :
    iev ∈ allEvents (mergeState c b i).events ∧
      ∀ e ∈ allEvents (mergeState c b i).events, e.id = iev.id → e = iev := by
  have hwfI := wf_flattenEvents i.events
  have hmemI : (eid, iev) ∈ flattenEvents i.events := mapGet?_eq_some_mem _ _ _ hin
  have hcontains : containsKey (flattenEvents i.events) eid = true :=
    (containsKey_iff _ _).2 (List.mem_map.2 ⟨(eid, iev), hmemI, rfl⟩)
  have hget : mapGet? (mergedEventMap c b i) eid = some iev := by
    simp only [mergedEventMap]
    rw [get?_foldl_delete_of_contains _ _ _ _ hcontains]
    exact get?_foldl_incoming_mem _ _ _ _ _ hwfI.1 hmemI hdiff
  exact merged_get_unique c b i eid iev hget

/-- Claim C2 witness: in the spec's scenario the incoming edit of event
`"a"` wins and lands in the merged state. -/
theorem mergeState_per_event_lww_witness :
    evA2 ∈ allEvents (mergeState stateCur stateBase stateInc).events :=
  (mergeState_per_event_lww stateCur stateBase stateInc "a" evA2
    (by decide) (by decide)).1

/-- Claim C3: delete wins over a concurrent edit — every event id present in
base but absent from incoming is absent from the merged state, regardless of
what current holds for it. -/
theorem mergeState_delete_wins (c b i : CalState) (eid : String)
    (hb : containsKey (flattenEvents b.events) eid = true)
    (hni : containsKey (flattenEvents i.events) eid = false) :
    ∀ e ∈ allEvents (mergeState c b i).events, e.id ≠ some eid := by
  have hmem : eid ∈ (flattenEvents b.events).map Prod.fst := (containsKey_iff _ _).1 hb
  have hfinal : containsKey (mergedEventMap c b i) eid = false := by
    simp only [mergedEventMap]
    exact contains_foldl_delete_false _ _ _ _ hmem hni
  exact merged_no_id c b i eid hfinal

/-- Claim C3 witness: when the incoming snapshot omits event `"a"` that base
had, the surviving merged event `"b"` indeed does not carry id `"a"` (and
`"a"` is gone from the merged state). -/
theorem mergeState_delete_wins_witness : evB.id ≠ some "a" :=
  mergeState_delete_wins stateCur stateBase stateIncDel "a"
    (by decide) (by decide) evB (by decide)

/-- Claim C4: concurrent-addition preservation — an event id present in
current but absent from both base and incoming keeps current's version in
the merged state. -/
theorem mergeState_concurrent_addition (c b i : CalState) (eid : String) (cev : Event)
    (hc : mapGet? (flattenEvents c.events) eid = some cev)
    (hnb : containsKey (flattenEvents b.events) eid = false)
    (hni : containsKey (flattenEvents i.events) eid = false) :
    cev ∈ allEvents (mergeState c b i).events ∧
      ∀ e ∈ allEvents (mergeState c b i).events, e.id = cev.id → e = cev := by
  have hniMem : eid ∉ (flattenEvents i.events).map Prod.fst := by
    intro hm
    rw [(containsKey_iff _ _).2 hm] at hni
    exact Bool.noConfusion hni
  have hnbMem : eid ∉ (flattenEvents b.events).map Prod.fst := by
    intro hm
    rw [(containsKey_iff _ _).2 hm] at hnb
    exact Bool.noConfusion hnb
  have hget : mapGet? (mergedEventMap c b i) eid = some cev := by
    simp only [mergedEventMap]
    rw [get?_foldl_delete_not_mem _ _ _ _ hnbMem,
        get?_foldl_incoming_not_mem _ _ _ _ hniMem]
    exact hc
  exact merged_get_unique c b i eid cev hget

/-- Claim C4 witness: the concurrently added event `"b"` survives the merge
of the spec's scenario. -/
theorem mergeState_concurrent_addition_witness :
    evB ∈ allEvents (mergeState stateCur stateBase stateInc).events :=
  (mergeState_concurrent_addition stateCur stateBase stateInc "b" evB
    (by decide) (by decide) (by decide)).1

/-- Claim C5: scalar field merge tie-break — each of the five scalar
settings is taken from incoming exactly when incoming differs from base on
that field, and kept from current otherwise; in particular with
base.viewMode = "row", current.viewMode = "grid", incoming.viewMode = "row"
the merged viewMode is "grid". -/
theorem mergeState_scalar_tiebreak (c b i : CalState) :
    ((mergeState c b i).numDays = if i.numDays = b.numDays then c.numDays else i.numDays) ∧
    ((mergeState c b i).startDate =
      if i.startDate = b.startDate then c.startDate else i.startDate) ∧
    ((mergeState c b i).startHour =
      if i.startHour = b.startHour then c.startHour else i.startHour) ∧
    ((mergeState c b i).endHour = if i.endHour = b.endHour then c.endHour else i.endHour) ∧
    ((mergeState c b i).viewMode =
      if i.viewMode = b.viewMode then c.viewMode else i.viewMode) ∧
    (b.viewMode = "row" → c.viewMode = "grid" → i.viewMode = "row" →
      (mergeState c b i).viewMode = "grid") := by
  refine ⟨rfl, rfl, rfl, rfl, rfl, ?_⟩
  intro hb hc hi
  simp [mergeState, hb, hc, hi]

/-- Claim C5 witness: the concrete tie-break instance. -/
theorem mergeState_scalar_tiebreak_witness :
    (mergeState stateCur stateBase stateInc).viewMode = "grid" :=
  (mergeState_scalar_tiebreak stateCur stateBase stateInc).2.2.2.2.2 rfl rfl rfl

/-- Claim C6: no-conflict pass-through — the Save handler adopts the
normalized incoming state verbatim whenever baseRevision is absent, the base
snapshot is absent, or baseRevision equals the current revision; the merge
engine is consulted exactly when an integer baseRevision differs from the
current revision and a base snapshot was supplied. -/
theorem save_no_conflict_passthrough (bootDate : String) (cal : CalEntry)
    (body : SaveBody) :
    ((body.baseRevision = none ∨ body.baseState = none ∨
        body.baseRevision = some cal.revision) →
      nextStateOf bootDate cal body = normalizeState bootDate body.state) ∧
    (∀ r braw, body.baseRevision = some r → body.baseState = some braw →
      r ≠ cal.revision →
      nextStateOf bootDate cal body =
        mergeState cal.state (normalizeState bootDate braw)
          (normalizeState bootDate body.state)) :=
  ⟨nextStateOf_passthrough bootDate cal body,
   fun r braw hr hb hne => nextStateOf_merge bootDate cal body r braw hr hb hne⟩

/-- Claim C6 witness: a body without baseRevision passes through, a body
with a stale baseRevision and a base snapshot goes through the merge. -/
theorem save_no_conflict_passthrough_witness :
    nextStateOf "2026-01-01" cal0 bodyNoBase =
      normalizeState "2026-01-01" bodyNoBase.state ∧
    nextStateOf "2026-01-01" cal0 bodyMergeW =
      mergeState cal0.state (normalizeState "2026-01-01" rawEmpty)
        (normalizeState "2026-01-01" bodyMergeW.state) :=
  ⟨(save_no_conflict_passthrough "2026-01-01" cal0 bodyNoBase).1 (Or.inl rfl),
   (save_no_conflict_passthrough "2026-01-01" cal0 bodyMergeW).2 7 rawEmpty rfl rfl
     (by decide)⟩

/-- Claim C7: revision behaviour of a successful Save — when the adopted
state deep-equals the stored one the call is a no-op that returns the
unchanged revision and leaves the entry untouched; otherwise the state is
replaced and the revision incremented by exactly 1; repeating the same Save
against the then-current revision leaves the revision unchanged on the
second call. -/
theorem save_revision_behaviour (bootDate now now2 : String) (cal : CalEntry)
    (body : SaveBody) :
    (nextStateOf bootDate cal body = cal.state →
      saveExisting bootDate now cal body true =
        (SaveResp.ok cal.state cal.revision, cal)) ∧
    (nextStateOf bootDate cal body ≠ cal.state →
      saveExisting bootDate now cal body true =
        (SaveResp.ok (nextStateOf bootDate cal body) (cal.revision + 1),
         ⟨cal.name, nextStateOf bootDate cal body, cal.revision + 1, now⟩)) ∧
    (body.baseRevision = some cal.revision →
      (saveExisting bootDate now2 (saveExisting bootDate now cal body true).2
          ⟨body.state, body.baseState,
            some ((saveExisting bootDate now cal body true).2.revision)⟩
          true).2.revision =
        (saveExisting bootDate now cal body true).2.revision) := by
  refine ⟨fun h => saveExisting_noop bootDate now cal body true h,
          fun h => saveExisting_mutate bootDate now cal body h, ?_⟩
  intro hr
  have hpass : nextStateOf bootDate cal body = normalizeState bootDate body.state :=
    nextStateOf_passthrough bootDate cal body (Or.inr (Or.inr hr))
  by_cases h : nextStateOf bootDate cal body = cal.state
  · rw [saveExisting_noop bootDate now cal body true h]
    have hpass2 : nextStateOf bootDate cal
        ⟨body.state, body.baseState, some cal.revision⟩ =
        normalizeState bootDate body.state :=
      nextStateOf_passthrough bootDate cal _ (Or.inr (Or.inr rfl))
    have hnoop2 : nextStateOf bootDate cal
        ⟨body.state, body.baseState, some cal.revision⟩ = cal.state := by
      rw [hpass2, ← hpass, h]
    rw [saveExisting_noop bootDate now2 cal _ true hnoop2]
  · rw [saveExisting_mutate bootDate now cal body h]
    have hpass2 : nextStateOf bootDate
        ⟨cal.name, nextStateOf bootDate cal body, cal.revision + 1, now⟩
        ⟨body.state, body.baseState, some (cal.revision + 1)⟩ =
        normalizeState bootDate body.state :=
      nextStateOf_passthrough bootDate _ _ (Or.inr (Or.inr rfl))
    have hnoop2 : nextStateOf bootDate
        ⟨cal.name, nextStateOf bootDate cal body, cal.revision + 1, now⟩
        ⟨body.state, body.baseState, some (cal.revision + 1)⟩ =
        (⟨cal.name, nextStateOf bootDate cal body, cal.revision + 1, now⟩ : CalEntry).state := by
      rw [hpass2]
      exact hpass.symm
    rw [saveExisting_noop bootDate now2 _ _ true hnoop2]

/-- Claim C7 witness: a mutating save on the concrete calendar bumps the
revision to 1, and repeating the same save against the new revision leaves
it at 1. -/
theorem save_revision_behaviour_witness :
    saveExisting "2026-01-01" "t1" cal0 body1 true =
      (SaveResp.ok (nextStateOf "2026-01-01" cal0 body1) (cal0.revision + 1),
       ⟨cal0.name, nextStateOf "2026-01-01" cal0 body1, cal0.revision + 1, "t1"⟩) ∧
    (saveExisting "2026-01-01" "t2" (saveExisting "2026-01-01" "t1" cal0 body1 true).2
        ⟨body1.state, body1.baseState,
          some ((saveExisting "2026-01-01" "t1" cal0 body1 true).2.revision)⟩
        true).2.revision =
      (saveExisting "2026-01-01" "t1" cal0 body1 true).2.revision :=
  ⟨(save_revision_behaviour "2026-01-01" "t1" "t2" cal0 body1).2.1 (by decide),
   (save_revision_behaviour "2026-01-01" "t1" "t2" cal0 body1).2.2 (by decide)⟩

/-- Claim C8 counterexample: `normalizeState` performs no membership check
on viewMode — a raw viewMode of "zigzag" passes through unchanged, so the
normalized viewMode is not one of row/grid/day. -/
theorem normalizeState_viewMode_cex :
    (normalizeState "2026-01-01" rawZig).viewMode = "zigzag" ∧
    (normalizeState "2026-01-01" rawZig).viewMode ≠ "row" ∧
    (normalizeState "2026-01-01" rawZig).viewMode ≠ "grid" ∧
    (normalizeState "2026-01-01" rawZig).viewMode ≠ "day" := by
  decide

/-- Claim C8 (amended): the normalized viewMode is whatever non-nullish
value `raw.viewMode ?? settings.viewMode` supplies, with no validation
against the set row/grid/day; only when both are nullish does the default
"row" apply. -/
theorem normalizeState_viewMode_passthrough (bootDate : String) (raw : RawState) :
    (∀ v, jsOr raw.viewMode (raw.settings.getD emptySettings).viewMode = some v →
      (normalizeState bootDate raw).viewMode = v) ∧
    (jsOr raw.viewMode (raw.settings.getD emptySettings).viewMode = none →
      (normalizeState bootDate raw).viewMode = "row") := by
  constructor
  · intro v hv
    simp [normalizeState, hv, DEFAULT_STATE]
  · intro hv
    simp [normalizeState, hv, DEFAULT_STATE]

/-- Claim C8 witness: the passthrough at the two concrete raw states. -/
theorem normalizeState_viewMode_passthrough_witness :
    (normalizeState "2026-01-01" rawZig).viewMode = "zigzag" ∧
    (normalizeState "2026-01-01" rawEmpty).viewMode = "row" :=
  ⟨(normalizeState_viewMode_passthrough "2026-01-01" rawZig).1 "zigzag" (by decide),
   (normalizeState_viewMode_passthrough "2026-01-01" rawEmpty).2 (by decide)⟩

/-- Claim C9: day-bucket consistency — in every merged state the bucket
keys are pairwise distinct, every event sits in the bucket keyed by the
string of its own dayIndex, and every bucket is sorted by startMinutes
ascending. -/
theorem mergeState_day_buckets (c b i : CalState) :
    (((mergeState c b i).events.map Prod.fst).Nodup) ∧
    (∀ p ∈ (mergeState c b i).events, ∀ e ∈ p.2, toString e.dayIndex = p.1) ∧
    (∀ p ∈ (mergeState c b i).events,
      List.Pairwise (fun x y : Event => x.startMinutes ≤ y.startMinutes) p.2) := by
  refine ⟨?_, ?_, ?_⟩
  · rw [mergeState_events_def]
    exact nodupKeys_groupByDay _
  · rw [mergeState_events_def]
    exact goodMembers_groupByDay _
  · rw [mergeState_events_def]
    exact sorted_groupByDay _

/-- Claim C9 witness: in the concrete merge, event `"b"` sits in bucket
"0" (its own dayIndex) and that bucket is sorted by startMinutes. -/
theorem mergeState_day_buckets_witness :
    toString evB.dayIndex = "0" ∧
    List.Pairwise (fun x y : Event => x.startMinutes ≤ y.startMinutes) [evA2, evB] :=
  ⟨(mergeState_day_buckets stateCur stateBase stateInc).2.1 ("0", [evA2, evB])
      (by decide) evB (by decide),
   (mergeState_day_buckets stateCur stateBase stateInc).2.2 ("0", [evA2, evB])
      (by decide)⟩

/-- Claim C10: an event whose id is absent or falsy in any of the three
snapshots is dropped by `flattenEvents` and therefore never appears in a
merged state — even when it sits only in the authoritative current
snapshot. -/
theorem mergeState_drops_idless_events (c b i : CalState) (e : Event)
    (h : hasId e = false) :
    e ∉ allEvents (mergeState c b i).events := by
  intro hmem
  rcases (mem_values_iff _ e).1 ((mem_allEvents_mergeState c b i e).1 hmem) with ⟨k, hke⟩
  have hk : evKey? e = some k := (wf_mergedEventMap c b i).2 _ hke
  unfold hasId at h
  rw [hk] at h
  exact Bool.noConfusion h

/-- Claim C10 witness: the id-less event present only in the current
snapshot vanishes from the merge result. -/
theorem mergeState_drops_idless_events_witness :
    hasId evNoId = false ∧
    evNoId ∉ allEvents (mergeState stateCur stateBase stateInc).events :=
  ⟨by decide,
   mergeState_drops_idless_events stateCur stateBase stateInc evNoId (by decide)⟩

/-- Claim C1 counterexample: with a mutating body and a failing durable
write, the handler answers with the storage error (the error is propagated)
but the in-memory entry is not left as it was — its revision has already
been incremented. -/
theorem save_write_failure_cex :
    (saveExisting "2026-01-01" "t1" cal0 body1 false).1 = SaveResp.storageError ∧
    (saveExisting "2026-01-01" "t1" cal0 body1 false).2 ≠ cal0 ∧
    (saveExisting "2026-01-01" "t1" cal0 body1 false).2.revision =
      cal0.revision + 1 := by
  decide

/-- Claim C1 (amended): on a mutating Save whose durable write fails, the
error is propagated to the caller, but the in-memory registry entry has
already been updated — it holds the new state, the incremented revision and
the new updatedAt, exactly as after a successful write. -/
theorem save_write_failure_keeps_mutation (bootDate now : String) (cal : CalEntry)
    (body : SaveBody) (h : nextStateOf bootDate cal body ≠ cal.state) :
    saveExisting bootDate now cal body false =
      (SaveResp.storageError,
       ⟨cal.name, nextStateOf bootDate cal body, cal.revision + 1, now⟩) := by
  unfold saveExisting
  simp [h]

/-- Claim C1 witness: the amended behaviour at the concrete calendar. -/
theorem save_write_failure_keeps_mutation_witness :
    saveExisting "2026-01-01" "t1" cal0 body1 false =
      (SaveResp.storageError,
       ⟨cal0.name, nextStateOf "2026-01-01" cal0 body1, cal0.revision + 1, "t1"⟩) :=
  save_write_failure_keeps_mutation "2026-01-01" "t1" cal0 body1 (by decide)

end OMC
